import Mathlib

/-!
Verification development for the move generator (movegen.h / movegen.cpp) and
the static evaluator (evaluate.cpp) of a Stockfish derivative.

The move generator and evaluator are embedded shallowly.  The collaborators
that the sources consume but do not define (bitboard utilities, the Position
board queries, the neural networks) are modelled from the specification:
bitboards are 64-bit sets represented as natural numbers below 2^64, attack
sets follow the standard chess movement rules, and Position is a record of
the queries movegen.cpp and evaluate.cpp perform, with the single-move
legality oracle and the networks kept abstract (arbitrary functions).
-/

namespace SF

/-- Side to move, as in types.h. -/
inductive Color where
  | WHITE
  | BLACK
deriving DecidableEq, Fintype, Repr

/-- The ~Us operation on colors. -/
def Color.opp : Color → Color
  | .WHITE => .BLACK
  | .BLACK => .WHITE

/-- Piece types, as in types.h. -/
inductive PieceType where
  | PAWN
  | KNIGHT
  | BISHOP
  | ROOK
  | QUEEN
  | KING
deriving DecidableEq, Fintype, Repr

/-- Numeric value of the PieceType enum (PAWN = 1, ..., KING = 6),
used by the Pt range test in generate_moves. -/
def PieceType.idx : PieceType → Nat
  | .PAWN => 1
  | .KNIGHT => 2
  | .BISHOP => 3
  | .ROOK => 4
  | .QUEEN => 5
  | .KING => 6

/-- Move kind bits of the 16-bit move encoding (types.h). -/
inductive MoveType where
  | NORMAL
  | PROMOTION
  | EN_PASSANT
  | CASTLING
deriving DecidableEq, Repr

/-- A move: origin square, destination square, kind and promotion piece.
In the source a move is a packed 16-bit value whose promotion bits are zero
(denoting KNIGHT) unless set by Move.make, so equality of this record
coincides with equality of the encoding. -/
structure Move where
  fromSq : Nat
  toSq : Nat
  mtype : MoveType := .NORMAL
  promo : PieceType := .KNIGHT
deriving DecidableEq, Repr

/-- ExtMove of movegen.h: a move with an integer ordering score. -/
structure ExtMove where
  move : Move
  value : Int
deriving DecidableEq, Repr

/-- A bitboard is a 64-bit word viewed as a set of squares 0..63. -/
abbrev Bitboard := Nat

/-- All 64 bits set: the value of ~0ULL. -/
def FULLBB : Bitboard := 2 ^ 64 - 1

/-- Bitwise complement within 64 bits (the C++ ~ operator on uint64_t). -/
def bbnot (b : Bitboard) : Bitboard := FULLBB ^^^ b

/-- square_bb: the bitboard with exactly the bit of square s set. -/
def sqbb (s : Nat) : Bitboard := 1 <<< s

/-- file_of: file index 0..7 of a square. -/
def fileOf (s : Nat) : Nat := s % 8

/-- rank_of: rank index 0..7 of a square. -/
def rankOf (s : Nat) : Nat := s / 8

/-- rank_bb for a rank index. -/
def rankBB (r : Nat) : Bitboard := 0xFF <<< (8 * r)

/-- file_bb for a file index. -/
def fileBB (f : Nat) : Bitboard := 0x0101010101010101 <<< f

def Rank2BB : Bitboard := rankBB 1
def Rank3BB : Bitboard := rankBB 2
def Rank6BB : Bitboard := rankBB 5
def Rank7BB : Bitboard := rankBB 6
def FileABB : Bitboard := fileBB 0
def FileHBB : Bitboard := fileBB 7

/-- The six board directions used by pawn generation (types.h Direction). -/
inductive Dir where
  | N
  | S
  | NE
  | NW
  | SE
  | SW
deriving DecidableEq, Repr

/-- Numeric square offset of a direction. -/
def Dir.toInt : Dir → Int
  | .N => 8
  | .S => -8
  | .NE => 9
  | .NW => 7
  | .SE => -7
  | .SW => -9

/-- shift of bitboard.h: move every square of a bitboard one step in a
direction, with off-board squares dropped via the file masks. -/
def shiftD : Dir → Bitboard → Bitboard
  | .N, b => (b <<< 8) &&& FULLBB
  | .S, b => b >>> 8
  | .NE, b => ((b &&& bbnot FileHBB) <<< 9) &&& FULLBB
  | .NW, b => ((b &&& bbnot FileABB) <<< 7) &&& FULLBB
  | .SE, b => (b &&& bbnot FileHBB) >>> 7
  | .SW, b => (b &&& bbnot FileABB) >>> 9

/-- Square arithmetic of a destination minus a direction, recovering a pawn origin square. -/
def subDir (tsq : Nat) (d : Dir) : Nat := ((tsq : Int) - d.toInt).toNat

/-- Square arithmetic s + D. -/
def addDir (s : Nat) (d : Dir) : Nat := ((s : Int) + d.toInt).toNat

/-- pawn_push(Us). -/
def upDir : Color → Dir
  | .WHITE => .N
  | .BLACK => .S

/-- The UpRight direction of generate_pawn_moves. -/
def upRightDir : Color → Dir
  | .WHITE => .NE
  | .BLACK => .SW

/-- The UpLeft direction of generate_pawn_moves. -/
def upLeftDir : Color → Dir
  | .WHITE => .NW
  | .BLACK => .SE

/-- The set bits of a bitboard in ascending order: the order in which a
pop_lsb loop visits them. -/
def squaresOf (b : Bitboard) : List Nat := (List.range 64).filter (fun s => b.testBit s)

/-- popcount of a 64-bit word. -/
def popcountBB (b : Bitboard) : Nat := (squaresOf b).length

/-- lsb: the least significant set bit (64 when the board is empty; the
source asserts nonemptiness at every call site). -/
def lsbSq (b : Bitboard) : Nat := (squaresOf b).headD 64

/-- more_than_one of bitboard.h. -/
def more_than_one (b : Bitboard) : Bool := b &&& (b - 1) != 0

/-- Modelled from the spec: square stepping for the attack-ray lookups of
the bitboard utilities (an external collaborator).  Steps one square by a
file/rank delta, returning none when leaving the board. -/
def stepFR (s : Nat) (df dr : Int) : Option Nat :=
  let f : Int := (s % 8 : Nat) + df
  let r : Int := (s / 8 : Nat) + dr
  if 0 ≤ f ∧ f < 8 ∧ 0 ≤ r ∧ r < 8 ∧ s < 64 then some (r * 8 + f).toNat else none

def knightDeltas : List (Int × Int) := [(1, 2), (2, 1), (2, -1), (1, -2), (-1, -2), (-2, -1), (-2, 1), (-1, 2)]

def kingDeltas : List (Int × Int) := [(1, 0), (1, 1), (0, 1), (-1, 1), (-1, 0), (-1, -1), (0, -1), (1, -1)]

def bishopDirs : List (Int × Int) := [(1, 1), (1, -1), (-1, 1), (-1, -1)]

def rookDirs : List (Int × Int) := [(1, 0), (-1, 0), (0, 1), (0, -1)]

/-- Union of single-square bitboards. -/
def bbOfSquares (l : List Nat) : Bitboard := l.foldl (fun b s => b ||| sqbb s) 0

/-- Modelled from the spec: attack set of a non-sliding piece. -/
def leaperAttacks (deltas : List (Int × Int)) (s : Nat) : Bitboard :=
  bbOfSquares (deltas.filterMap (fun d => stepFR s d.1 d.2))

/-- Modelled from the spec: one sliding-attack ray, stopping at (and
including) the first occupied square. -/
def slideRay (occ : Bitboard) (df dr : Int) : Nat → Nat → Bitboard
  | _, 0 => 0
  | cur, fuel + 1 =>
    match stepFR cur df dr with
    | none => 0
    | some t => sqbb t ||| (if occ.testBit t then 0 else slideRay occ df dr t fuel)

/-- Modelled from the spec: sliding attacks along a direction list. -/
def sliderAttacks (dirs : List (Int × Int)) (s : Nat) (occ : Bitboard) : Bitboard :=
  dirs.foldl (fun b d => b ||| slideRay occ d.1 d.2 s 7) 0

/-- Modelled from the spec: attacks_bb of bitboard.h, the attack set of a
piece on a square given the board occupancy. -/
def attacks_bb (pt : PieceType) (s : Nat) (occ : Bitboard) : Bitboard :=
  match pt with
  | .KNIGHT => leaperAttacks knightDeltas s
  | .BISHOP => sliderAttacks bishopDirs s occ
  | .ROOK => sliderAttacks rookDirs s occ
  | .QUEEN => sliderAttacks bishopDirs s occ ||| sliderAttacks rookDirs s occ
  | .KING => leaperAttacks kingDeltas s
  | .PAWN => 0

/-- Modelled from the spec: pawn_attacks_bb of bitboard.h. -/
def pawn_attacks_bb (c : Color) (s : Nat) : Bitboard :=
  leaperAttacks (match c with
    | .WHITE => [(1, 1), (-1, 1)]
    | .BLACK => [(1, -1), (-1, -1)]) s

/-- Helper for between_bb: the squares from s1 (exclusive) along one
direction up to s2 (inclusive), or none when s2 is not hit. -/
def rayThrough (s2 : Nat) (df dr : Int) : Nat → Nat → Option Bitboard
  | _, 0 => none
  | cur, fuel + 1 =>
    match stepFR cur df dr with
    | none => none
    | some t =>
      if t = s2 then some (sqbb t)
      else (rayThrough s2 df dr t fuel).map (fun bb => sqbb t ||| bb)

/-- Modelled from the spec: between_bb of bitboard.h, the squares strictly
between two aligned squares plus the second square; just the second square
when they are not aligned. -/
def between_bb (s1 s2 : Nat) : Bitboard :=
  match ((bishopDirs ++ rookDirs).filterMap (fun d => rayThrough s2 d.1 d.2 s1 7)).head? with
  | some bb => bb
  | none => sqbb s2

/-- The two castling sides of a CastlingRights mask. -/
inductive CastlingSide where
  | KING_SIDE
  | QUEEN_SIDE
deriving DecidableEq, Fintype, Repr

/-- GenType of movegen.h. -/
inductive GenType where
  | CAPTURES
  | QUIETS
  | EVASIONS
  | NON_EVASIONS
  | LEGAL
deriving DecidableEq, Repr

/-- Modelled from the spec: the Position collaborator, as the record of the
queries movegen.cpp and evaluate.cpp perform on it.  The single-move
legality verifier is kept abstract (an arbitrary function), as are the
stored check / pin / castling data maintained by position.cpp. -/
structure Position where
  byColorType : Color → PieceType → Bitboard
  sideToMove : Color
  epSquare : Option Nat
  checkersBB : Bitboard
  blockersForKing : Color → Bitboard
  canCastleSide : Color → CastlingSide → Bool
  castlingImpededSide : Color → CastlingSide → Bool
  castlingRookSquareSide : Color → CastlingSide → Nat
  legalOracle : Move → Bool
  rule50 : Int

/-- pos.pieces(c): all pieces of one color. -/
def Position.pieces (pos : Position) (c : Color) : Bitboard :=
  pos.byColorType c .PAWN ||| pos.byColorType c .KNIGHT ||| pos.byColorType c .BISHOP |||
    pos.byColorType c .ROOK ||| pos.byColorType c .QUEEN ||| pos.byColorType c .KING

/-- pos.pieces(): the full occupancy. -/
def Position.piecesAll (pos : Position) : Bitboard :=
  pos.pieces .WHITE ||| pos.pieces .BLACK

/-- pos.square of the KING of a color. -/
def Position.kingSq (pos : Position) (c : Color) : Nat :=
  lsbSq (pos.byColorType c .KING)

/-- The tunable quiet-move mobility tables of movegen.cpp. -/
def MOBILITY_BONUS : List Int := [546, 297, 324, 132]

def AVG_MOB_BONUS : List Int := [2311, 1113, 1459, 1201]

/-- make_promotions of movegen.cpp: the promotion moves appended for one
destination square, depending on the generation mode and on whether the
promotion is a capture (Enemy). -/
def make_promotions (T : GenType) (d : Dir) (enemy : Bool) (tsq : Nat) : List ExtMove :=
  let all := T = .EVASIONS ∨ T = .NON_EVASIONS
  (if T = .CAPTURES ∨ all then
    [⟨⟨subDir tsq d, tsq, .PROMOTION, .QUEEN⟩, 0⟩] else [])
  ++ (if (T = .CAPTURES ∧ enemy = true) ∨ (T = .QUIETS ∧ enemy = false) ∨ all then
    [⟨⟨subDir tsq d, tsq, .PROMOTION, .ROOK⟩, 0⟩,
     ⟨⟨subDir tsq d, tsq, .PROMOTION, .BISHOP⟩, 0⟩,
     ⟨⟨subDir tsq d, tsq, .PROMOTION, .KNIGHT⟩, 0⟩] else [])

/-- The push block of generate_pawn_moves in movegen.cpp: single and
double pawn pushes without promotions, restricted to the blocking squares
under EVASIONS, and absent under CAPTURES. -/
def pawnPushesGen (us : Color) (T : GenType) (pos : Position) (target : Bitboard) :
    List ExtMove :=
  let trank7 := if us = .WHITE then Rank7BB else Rank2BB
  let trank3 := if us = .WHITE then Rank3BB else Rank6BB
  let up := upDir us
  let emptySquares := bbnot pos.piecesAll
  let pawnsNotOn7 := pos.byColorType us .PAWN &&& bbnot trank7
  if T ≠ .CAPTURES then
    let b1 := shiftD up pawnsNotOn7 &&& emptySquares
    let b2 := shiftD up (b1 &&& trank3) &&& emptySquares
    let b1 := if T = .EVASIONS then b1 &&& target else b1
    let b2 := if T = .EVASIONS then b2 &&& target else b2
    (squaresOf b1).map (fun tsq => (⟨⟨subDir tsq up, tsq, .NORMAL, .KNIGHT⟩, 0⟩ : ExtMove))
    ++ (squaresOf b2).map
        (fun tsq => (⟨⟨subDir (subDir tsq up) up, tsq, .NORMAL, .KNIGHT⟩, 0⟩ : ExtMove))
  else []

/-- The promotion block of generate_pawn_moves in movegen.cpp. -/
def pawnPromosGen (us : Color) (T : GenType) (pos : Position) (target : Bitboard) :
    List ExtMove :=
  let trank7 := if us = .WHITE then Rank7BB else Rank2BB
  let up := upDir us
  let upRight := upRightDir us
  let upLeft := upLeftDir us
  let emptySquares := bbnot pos.piecesAll
  let enemies := if T = .EVASIONS then pos.checkersBB else pos.pieces us.opp
  let pawnsOn7 := pos.byColorType us .PAWN &&& trank7
  if pawnsOn7 ≠ 0 then
    let b1 := shiftD upRight pawnsOn7 &&& enemies
    let b2 := shiftD upLeft pawnsOn7 &&& enemies
    let b3 := shiftD up pawnsOn7 &&& emptySquares
    let b3 := if T = .EVASIONS then b3 &&& target else b3
    (squaresOf b1).flatMap (make_promotions T upRight true)
    ++ (squaresOf b2).flatMap (make_promotions T upLeft true)
    ++ (squaresOf b3).flatMap (make_promotions T up false)
  else []

/-- The capture block of generate_pawn_moves in movegen.cpp: ordinary
captures followed by en passant, the latter skipped under EVASIONS when the
check ray passes through the square the double-pushed pawn vacated. -/
def pawnCapsEpGen (us : Color) (T : GenType) (pos : Position) (target : Bitboard) :
    List ExtMove :=
  let trank7 := if us = .WHITE then Rank7BB else Rank2BB
  let up := upDir us
  let upRight := upRightDir us
  let upLeft := upLeftDir us
  let enemies := if T = .EVASIONS then pos.checkersBB else pos.pieces us.opp
  let pawnsNotOn7 := pos.byColorType us .PAWN &&& bbnot trank7
  if T = .CAPTURES ∨ T = .EVASIONS ∨ T = .NON_EVASIONS then
    let b1 := shiftD upRight pawnsNotOn7 &&& enemies
    let b2 := shiftD upLeft pawnsNotOn7 &&& enemies
    let caps :=
      (squaresOf b1).map (fun tsq => (⟨⟨subDir tsq upRight, tsq, .NORMAL, .KNIGHT⟩, 0⟩ : ExtMove))
      ++ (squaresOf b2).map
          (fun tsq => (⟨⟨subDir tsq upLeft, tsq, .NORMAL, .KNIGHT⟩, 0⟩ : ExtMove))
    let ep :=
      match pos.epSquare with
      | none => []
      | some e =>
        if T = .EVASIONS ∧ target.testBit (addDir e up) then []
        else (squaresOf (pawnsNotOn7 &&& pawn_attacks_bb us.opp e)).map
            (fun fr => (⟨⟨fr, e, .EN_PASSANT, .KNIGHT⟩, 0⟩ : ExtMove))
    caps ++ ep
  else []

/-- generate_pawn_moves of movegen.cpp, emitting the appended moves in
source order: pushes, promotions, captures and en passant. -/
def generate_pawn_moves (us : Color) (T : GenType) (pos : Position) (target : Bitboard) :
    List ExtMove :=
  pawnPushesGen us T pos target ++ pawnPromosGen us T pos target ++ pawnCapsEpGen us T pos target

/-- generate_moves of movegen.cpp for one non-pawn non-king piece type,
with the quiet-move mobility score of the fork. -/
def generate_moves (us : Color) (pt : PieceType) (T : GenType) (pos : Position)
    (target : Bitboard) : List ExtMove :=
  (squaresOf (pos.byColorType us pt)).flatMap (fun fr =>
    let b0 := attacks_bb pt fr pos.piecesAll
    let moves := popcountBB b0
    let b := b0 &&& target
    let score : Int :=
      if T = .QUIETS ∧ 2 ≤ pt.idx ∧ pt.idx ≤ 5 then
        AVG_MOB_BONUS.getD (pt.idx - 2) 0 - MOBILITY_BONUS.getD (pt.idx - 2) 0 * (moves : Int)
      else 0
    (squaresOf b).map (fun tsq => (⟨⟨fr, tsq, .NORMAL, .KNIGHT⟩, score⟩ : ExtMove)))

/-- The mode-dependent target-square set of generate_all. -/
def targetFor (us : Color) (T : GenType) (pos : Position) (ksq : Nat) : Bitboard :=
  if T = .EVASIONS then between_bb ksq (lsbSq pos.checkersBB)
  else if T = .NON_EVASIONS then bbnot (pos.pieces us)
  else if T = .CAPTURES then pos.pieces us.opp
  else bbnot pos.piecesAll

/-- The king-move block of generate_all in movegen.cpp. -/
def kingMovesGen (us : Color) (T : GenType) (pos : Position) : List ExtMove :=
  let ksq := pos.kingSq us
  let b := attacks_bb .KING ksq pos.piecesAll &&&
    (if T = .EVASIONS then bbnot (pos.pieces us) else targetFor us T pos ksq)
  (squaresOf b).map (fun tsq => (⟨⟨ksq, tsq, .NORMAL, .KNIGHT⟩, 0⟩ : ExtMove))

/-- The castling block of generate_all in movegen.cpp. -/
def castleGen (us : Color) (T : GenType) (pos : Position) : List ExtMove :=
  let ksq := pos.kingSq us
  if (T = .QUIETS ∨ T = .NON_EVASIONS) ∧
      (pos.canCastleSide us .KING_SIDE = true ∨ pos.canCastleSide us .QUEEN_SIDE = true) then
    ([CastlingSide.KING_SIDE, CastlingSide.QUEEN_SIDE]).filterMap (fun cr =>
      if pos.castlingImpededSide us cr = false ∧ pos.canCastleSide us cr = true then
        some (⟨⟨ksq, pos.castlingRookSquareSide us cr, .CASTLING, .KNIGHT⟩, 0⟩ : ExtMove)
      else none)
  else []

/-- generate_all of movegen.cpp: pawn and piece moves (skipped entirely in
double check under EVASIONS), king moves, and castling. -/
def generate_all (us : Color) (T : GenType) (pos : Position) : List ExtMove :=
  let ksq := pos.kingSq us
  (if T ≠ .EVASIONS ∨ more_than_one pos.checkersBB = false then
    let target := targetFor us T pos ksq
    generate_pawn_moves us T pos target
    ++ generate_moves us .KNIGHT T pos target
    ++ generate_moves us .BISHOP T pos target
    ++ generate_moves us .ROOK T pos target
    ++ generate_moves us .QUEEN T pos target
  else [])
  ++ kingMovesGen us T pos ++ castleGen us T pos

/-- generate of movegen.cpp for the four pseudo-legal modes: the White and
Black template instantiations both run generate_all on the side to move. -/
def generate (T : GenType) (pos : Position) : List ExtMove :=
  generate_all pos.sideToMove T pos

/-- The moves of an ExtMove list, with the ordering scores dropped. -/
def movesOf (l : List ExtMove) : List Move := l.map ExtMove.move

/-- The filtering loop of the LEGAL specialization of generate, modelled on
the unprocessed suffix of the move list: a failing entry is overwritten
with the current last entry, which is then re-scanned; a passing entry
advances the cursor. -/
def swapFilter {α : Type} (keep : α → Bool) : List α → List α
  | [] => []
  | [x] => if keep x then [x] else []
  | x :: y :: ys =>
    if keep x then x :: swapFilter keep (y :: ys)
    else swapFilter keep ((y :: ys).getLast (List.cons_ne_nil y ys) :: (y :: ys).dropLast)
termination_by l => l.length
decreasing_by
  all_goals simp [List.length_dropLast]


/-- The cheap test of the LEGAL loop deciding whether the full legality
oracle must be consulted for a move: origin on a pin-blocker of the side to
move, origin on the king square, or an en passant capture. -/
def restrictedMove (pos : Position) (m : Move) : Bool :=
  let us := pos.sideToMove
  let pinned := pos.blockersForKing us &&& pos.pieces us
  pinned.testBit m.fromSq || m.fromSq == pos.kingSq us || m.mtype == .EN_PASSANT

/-- A move survives the LEGAL loop unless it is restricted and fails the
legality oracle. -/
def legalKeep (pos : Position) (em : ExtMove) : Bool :=
  !(restrictedMove pos em.move && !pos.legalOracle em.move)

/-- The pseudo-legal list that the LEGAL specialization starts from:
EVASIONS when the side to move is in check, NON_EVASIONS otherwise. -/
def pseudoLegal (pos : Position) : List ExtMove :=
  if pos.checkersBB ≠ 0 then generate .EVASIONS pos else generate .NON_EVASIONS pos

/-- The LEGAL specialization of generate in movegen.cpp. -/
def generateLegal (pos : Position) : List ExtMove :=
  swapFilter (legalKeep pos) (pseudoLegal pos)

/-- A nonempty list is a permutation of its last element consed on the
rest. -/
theorem getLast_cons_dropLast_perm {α : Type} (l : List α) (h : l ≠ []) :
    (l.getLast h :: l.dropLast).Perm l := by
  have h1 := List.dropLast_append_getLast h
  calc (l.getLast h :: l.dropLast).Perm (l.dropLast ++ [l.getLast h]) :=
    (List.perm_append_singleton _ _).symm
  _ = l := h1

/-- The swap-with-last loop keeps exactly the entries passing the
predicate, up to order. -/
theorem swapFilter_perm {α : Type} (keep : α → Bool) (l : List α) :
    (swapFilter keep l).Perm (l.filter keep) := by
  have H : ∀ (n : Nat) (l : List α), l.length ≤ n → (swapFilter keep l).Perm (l.filter keep) := by
    intro n
    induction n with
    | zero =>
      intro l hl
      have hnil : l = [] := List.length_eq_zero.mp (Nat.le_zero.mp hl)
      subst hnil
      simp [swapFilter]
    | succ n ih =>
      intro l hl
      match l with
      | [] => simp [swapFilter]
      | [x] => cases hk : keep x <;> simp [swapFilter, hk, List.filter_cons]
      | x :: y :: ys =>
        simp only [swapFilter]
        rw [List.filter_cons]
        cases hk : keep x with
        | true =>
          simp only [hk, if_true]
          exact (ih (y :: ys) (by simp at hl ⊢; omega)).cons x
        | false =>
          simp only [hk, Bool.false_eq_true, if_false]
          have hlast := getLast_cons_dropLast_perm (y :: ys) (List.cons_ne_nil y ys)
          have hrec := ih ((y :: ys).getLast (List.cons_ne_nil y ys) :: (y :: ys).dropLast)
            (by simp [List.length_dropLast] at hl ⊢; omega)
          exact hrec.trans (hlast.filter keep)
  exact H l.length l (Nat.le_refl _)

/-- Membership in the set-bit list of a bitboard. -/
theorem mem_squaresOf {b : Bitboard} {s : Nat} : s ∈ squaresOf b ↔ s < 64 ∧ b.testBit s := by
  simp [squaresOf, List.mem_filter]

/-- C1: generate(pos, LEGAL) produces exactly the moves of the pseudo-legal
list (EVASIONS in check, NON_EVASIONS otherwise) that survive the legality
oracle, the oracle being consulted only for restricted moves (origin on a
pin-blocker of the mover's king, origin on the king square, or en passant);
every other pseudo-legal move is kept without verification, and removal by
swap-with-last preserves the surviving multiset. -/
theorem generate_legal_filters_pseudo (pos : Position) :
    (generateLegal pos).Perm ((pseudoLegal pos).filter (legalKeep pos)) ∧
    (∀ em : ExtMove, restrictedMove pos em.move = false → legalKeep pos em = true) ∧
    (∀ em : ExtMove, legalKeep pos em = false ↔
      (restrictedMove pos em.move = true ∧ pos.legalOracle em.move = false)) := by
  refine ⟨swapFilter_perm _ _, fun em h => ?_, fun em => ?_⟩
  · simp [legalKeep, h]
  · simp [legalKeep]

/-- Modelled from the spec: the basic consistency guarantees of the
Position collaborator that the claims rely on.  The two colors occupy
disjoint squares, and no castling rook square of a side is occupied by an
enemy piece (the rook standing there belongs to the castling side). -/
def WF (pos : Position) : Prop :=
  pos.pieces .WHITE &&& pos.pieces .BLACK = 0 ∧
  ∀ c s, (pos.pieces c.opp).testBit (pos.castlingRookSquareSide c s) = false

instance (pos : Position) : Decidable (WF pos) := by
  unfold WF
  infer_instance

/-- Complement within the 64-bit universe, bitwise. -/
theorem testBit_bbnot (b : Bitboard) (i : Nat) (hi : i < 64) :
    (bbnot b).testBit i = !b.testBit i := by
  have h1 : Nat.testBit FULLBB i = true := by
    have h2 : FULLBB = 2 ^ 64 - 1 := rfl
    rw [h2, Nat.testBit_two_pow_sub_one]
    simp [hi]
  simp [bbnot, Nat.testBit_xor, h1]

/-- On a well-formed position the complement of one side's pieces splits
into the enemy pieces and the empty squares. -/
theorem compl_own_split (pos : Position) (hwf : WF pos) (c : Color) (i : Nat) (hi : i < 64) :
    (bbnot (pos.pieces c)).testBit i =
      ((pos.pieces c.opp).testBit i || (bbnot pos.piecesAll).testBit i) := by
  have hdi : ¬((pos.pieces .WHITE).testBit i ∧ (pos.pieces .BLACK).testBit i) := by
    intro h
    have hland := Nat.testBit_land (pos.pieces .WHITE) (pos.pieces .BLACK) i
    rw [hwf.1] at hland
    simp [h.1, h.2] at hland
  rw [testBit_bbnot _ _ hi, testBit_bbnot _ _ hi]
  unfold Position.piecesAll
  rw [Nat.testBit_lor]
  cases c <;>
    rcases hW : (pos.pieces .WHITE).testBit i <;>
      rcases hB : (pos.pieces .BLACK).testBit i <;>
        simp_all [Color.opp]

/-- Enemy squares are occupied, hence never empty. -/
theorem opp_not_empty (pos : Position) (c : Color) (i : Nat) (hi : i < 64) :
    ¬((pos.pieces c.opp).testBit i = true ∧ (bbnot pos.piecesAll).testBit i = true) := by
  intro h
  have h2 := h.2
  rw [testBit_bbnot _ _ hi] at h2
  unfold Position.piecesAll at h2
  rw [Nat.testBit_lor] at h2
  cases c <;> simp_all [Color.opp]

/-- Splitting an intersection with the complement of the own pieces into
enemy captures and moves to empty squares. -/
theorem land_compl_split (pos : Position) (hwf : WF pos) (c : Color) (x : Bitboard) (i : Nat)
    (hi : i < 64) :
    (x &&& bbnot (pos.pieces c)).testBit i =
      ((x &&& pos.pieces c.opp).testBit i || (x &&& bbnot pos.piecesAll).testBit i) := by
  rw [Nat.testBit_land, Nat.testBit_land, Nat.testBit_land,
    compl_own_split pos hwf c i hi, Bool.and_or_distrib_left]

/-- The squaresOf version of land_compl_split. -/
theorem mem_squaresOf_compl_split (pos : Position) (hwf : WF pos) (c : Color) (x : Bitboard)
    (i : Nat) :
    i ∈ squaresOf (x &&& bbnot (pos.pieces c)) ↔
      (i ∈ squaresOf (x &&& pos.pieces c.opp) ∨ i ∈ squaresOf (x &&& bbnot pos.piecesAll)) := by
  simp only [mem_squaresOf]
  constructor
  · rintro ⟨hi, hx⟩
    rw [land_compl_split pos hwf c x i hi] at hx
    rcases Bool.or_eq_true_iff.mp hx with h | h
    · exact Or.inl ⟨hi, h⟩
    · exact Or.inr ⟨hi, h⟩
  · rintro (⟨hi, hx⟩ | ⟨hi, hx⟩) <;> refine ⟨hi, ?_⟩ <;>
      rw [land_compl_split pos hwf c x i hi] <;> simp [hx]

/-- Membership in moves of an appended list splits. -/
theorem mem_movesOf_append {l1 l2 : List ExtMove} {m : Move} :
    m ∈ movesOf (l1 ++ l2) ↔ m ∈ movesOf l1 ∨ m ∈ movesOf l2 := by
  simp [movesOf]

/-- The NON_EVASIONS output of generate_moves is the union of the CAPTURES
and QUIETS outputs, once scores are dropped. -/
theorem generate_moves_union (pos : Position) (hwf : WF pos) (us : Color) (pt : PieceType)
    (m : Move) :
    m ∈ movesOf (generate_moves us pt .NON_EVASIONS pos (bbnot (pos.pieces us))) ↔
      (m ∈ movesOf (generate_moves us pt .CAPTURES pos (pos.pieces us.opp)) ∨
       m ∈ movesOf (generate_moves us pt .QUIETS pos (bbnot pos.piecesAll))) := by
  simp only [generate_moves, movesOf, List.map_flatMap, List.mem_flatMap, List.map_map,
    Function.comp, List.mem_map, mem_squaresOf_compl_split pos hwf us]
  constructor
  · rintro ⟨fr, hfr, t2, ht2 | ht2, rfl⟩
    · exact Or.inl ⟨fr, hfr, t2, ht2, rfl⟩
    · exact Or.inr ⟨fr, hfr, t2, ht2, rfl⟩
  · rintro (⟨fr, hfr, t2, ht2, rfl⟩ | ⟨fr, hfr, t2, ht2, rfl⟩)
    · exact ⟨fr, hfr, t2, Or.inl ht2, rfl⟩
    · exact ⟨fr, hfr, t2, Or.inr ht2, rfl⟩

/-- Pawn pushes coincide between NON_EVASIONS and QUIETS. -/
theorem pawnPushes_NE_eq_Q (us : Color) (pos : Position) (t1 t3 : Bitboard) :
    pawnPushesGen us .NON_EVASIONS pos t1 = pawnPushesGen us .QUIETS pos t3 := rfl

/-- CAPTURES generates no pawn pushes. -/
theorem pawnPushes_C (us : Color) (pos : Position) (t2 : Bitboard) :
    pawnPushesGen us .CAPTURES pos t2 = [] := rfl

/-- Pawn captures and en passant coincide between NON_EVASIONS and
CAPTURES. -/
theorem pawnCapsEp_NE_eq_C (us : Color) (pos : Position) (t1 t2 : Bitboard) :
    pawnCapsEpGen us .NON_EVASIONS pos t1 = pawnCapsEpGen us .CAPTURES pos t2 := rfl

/-- QUIETS generates no pawn captures. -/
theorem pawnCapsEp_Q (us : Color) (pos : Position) (t3 : Bitboard) :
    pawnCapsEpGen us .QUIETS pos t3 = [] := rfl

/-- Castling coincides between NON_EVASIONS and QUIETS. -/
theorem castleGen_NE_eq_Q (us : Color) (pos : Position) :
    castleGen us .NON_EVASIONS pos = castleGen us .QUIETS pos := by
  unfold castleGen
  by_cases hc : pos.canCastleSide us .KING_SIDE = true ∨ pos.canCastleSide us .QUEEN_SIDE = true
  · rw [if_pos ⟨Or.inr rfl, hc⟩, if_pos ⟨Or.inl rfl, hc⟩]
  · rw [if_neg (fun h => hc h.2), if_neg (fun h => hc h.2)]

/-- CAPTURES generates no castling. -/
theorem castleGen_C (us : Color) (pos : Position) :
    castleGen us .CAPTURES pos = [] := rfl

/-- Membership in the moves of a flatMap over squares. -/
theorem mem_movesOf_flatMap {A : List Nat} {f : Nat → List ExtMove} {m : Move} :
    m ∈ movesOf (A.flatMap f) ↔ ∃ a ∈ A, m ∈ movesOf (f a) := by
  simp [movesOf, List.map_flatMap]

/-- Per destination square, the NON_EVASIONS promotion list is the union of
the CAPTURES and QUIETS ones. -/
theorem make_promotions_NE_split (d : Dir) (enemy : Bool) (tsq : Nat) (m : Move) :
    m ∈ movesOf (make_promotions .NON_EVASIONS d enemy tsq) ↔
      (m ∈ movesOf (make_promotions .CAPTURES d enemy tsq) ∨
       m ∈ movesOf (make_promotions .QUIETS d enemy tsq)) := by
  cases enemy <;> simp [make_promotions, movesOf]

/-- The NON_EVASIONS promotions are the union of the CAPTURES and QUIETS
promotions. -/
theorem pawnPromos_union (pos : Position) (us : Color) (t1 t2 t3 : Bitboard) (m : Move) :
    m ∈ movesOf (pawnPromosGen us .NON_EVASIONS pos t1) ↔
      (m ∈ movesOf (pawnPromosGen us .CAPTURES pos t2) ∨
       m ∈ movesOf (pawnPromosGen us .QUIETS pos t3)) := by
  simp only [pawnPromosGen]
  by_cases h7 : pos.byColorType us .PAWN &&& (if us = .WHITE then Rank7BB else Rank2BB) ≠ 0
  · rw [if_pos h7, if_pos h7, if_pos h7]
    simp [mem_movesOf_append, mem_movesOf_flatMap, make_promotions_NE_split,
      and_or_left, exists_or]
    itauto
  · rw [if_neg h7, if_neg h7, if_neg h7]
    simp [movesOf]

/-- The NON_EVASIONS king moves are the union of the CAPTURES and QUIETS
king moves. -/
theorem kingMoves_union (pos : Position) (hwf : WF pos) (us : Color) (m : Move) :
    m ∈ movesOf (kingMovesGen us .NON_EVASIONS pos) ↔
      (m ∈ movesOf (kingMovesGen us .CAPTURES pos) ∨
       m ∈ movesOf (kingMovesGen us .QUIETS pos)) := by
  simp only [kingMovesGen, targetFor, movesOf, List.map_map, Function.comp, List.mem_map]
  simp only [show (GenType.NON_EVASIONS = GenType.EVASIONS) = False by simp,
    show (GenType.CAPTURES = GenType.EVASIONS) = False by simp,
    show (GenType.QUIETS = GenType.EVASIONS) = False by simp,
    show (GenType.NON_EVASIONS = GenType.NON_EVASIONS) = True by simp,
    show (GenType.CAPTURES = GenType.NON_EVASIONS) = False by simp,
    show (GenType.QUIETS = GenType.NON_EVASIONS) = False by simp,
    show (GenType.CAPTURES = GenType.CAPTURES) = True by simp,
    show (GenType.QUIETS = GenType.CAPTURES) = False by simp,
    if_true, if_false, mem_squaresOf_compl_split pos hwf us]
  constructor
  · rintro ⟨t2, ht2 | ht2, rfl⟩
    · exact Or.inl ⟨t2, ht2, rfl⟩
    · exact Or.inr ⟨t2, ht2, rfl⟩
  · rintro (⟨t2, ht2, rfl⟩ | ⟨t2, ht2, rfl⟩)
    · exact ⟨t2, Or.inl ht2, rfl⟩
    · exact ⟨t2, Or.inr ht2, rfl⟩

/-- The EVASIONS mode generates no castling. -/
theorem castleGen_EV (us : Color) (pos : Position) :
    castleGen us .EVASIONS pos = [] := rfl

theorem targetFor_NE (us : Color) (pos : Position) (ksq : Nat) :
    targetFor us .NON_EVASIONS pos ksq = bbnot (pos.pieces us) := rfl

theorem targetFor_C (us : Color) (pos : Position) (ksq : Nat) :
    targetFor us .CAPTURES pos ksq = pos.pieces us.opp := rfl

theorem targetFor_Q (us : Color) (pos : Position) (ksq : Nat) :
    targetFor us .QUIETS pos ksq = bbnot pos.piecesAll := rfl

theorem targetFor_EV (us : Color) (pos : Position) (ksq : Nat) :
    targetFor us .EVASIONS pos ksq = between_bb ksq (lsbSq pos.checkersBB) := rfl

/-- The NON_EVASIONS pawn moves are the union of the CAPTURES and QUIETS
pawn moves. -/
theorem generate_pawn_union (pos : Position) (us : Color) (t1 t2 t3 : Bitboard) (m : Move) :
    m ∈ movesOf (generate_pawn_moves us .NON_EVASIONS pos t1) ↔
      (m ∈ movesOf (generate_pawn_moves us .CAPTURES pos t2) ∨
       m ∈ movesOf (generate_pawn_moves us .QUIETS pos t3)) := by
  simp only [generate_pawn_moves, mem_movesOf_append]
  rw [pawnPushes_NE_eq_Q us pos t1 t3, pawnCapsEp_NE_eq_C us pos t1 t2,
    pawnPushes_C, pawnCapsEp_Q, pawnPromos_union pos us t1 t2 t3]
  simp [movesOf]
  itauto

/-- C5 core: the NON_EVASIONS move set is the union of the CAPTURES and
QUIETS move sets. -/
theorem generate_NE_union (pos : Position) (hwf : WF pos) (m : Move) :
    m ∈ movesOf (generate .NON_EVASIONS pos) ↔
      (m ∈ movesOf (generate .CAPTURES pos) ∨ m ∈ movesOf (generate .QUIETS pos)) := by
  simp only [generate, generate_all]
  rw [if_pos (Or.inl (by decide) :
        GenType.NON_EVASIONS ≠ .EVASIONS ∨ more_than_one pos.checkersBB = false),
    if_pos (Or.inl (by decide) :
        GenType.CAPTURES ≠ .EVASIONS ∨ more_than_one pos.checkersBB = false),
    if_pos (Or.inl (by decide) :
        GenType.QUIETS ≠ .EVASIONS ∨ more_than_one pos.checkersBB = false)]
  rw [targetFor_NE, targetFor_C, targetFor_Q]
  simp only [mem_movesOf_append]
  rw [castleGen_NE_eq_Q, castleGen_C]
  rw [generate_pawn_union pos pos.sideToMove _ (pos.pieces pos.sideToMove.opp)
      (bbnot pos.piecesAll) m]
  rw [generate_moves_union pos hwf pos.sideToMove .KNIGHT m,
    generate_moves_union pos hwf pos.sideToMove .BISHOP m,
    generate_moves_union pos hwf pos.sideToMove .ROOK m,
    generate_moves_union pos hwf pos.sideToMove .QUEEN m,
    kingMoves_union pos hwf pos.sideToMove m]
  simp [movesOf]
  itauto

/-- A square listed in an intersection satisfies the right operand. -/
theorem testBit_right_of_mem_land {x y : Bitboard} {i : Nat} (h : i ∈ squaresOf (x &&& y)) :
    y.testBit i = true := by
  rcases mem_squaresOf.mp h with ⟨_, hb⟩
  simp [Nat.testBit_land] at hb
  exact hb.2

/-- Squares listed by squaresOf are on the board. -/
theorem lt_64_of_mem_squaresOf {b : Bitboard} {i : Nat} (h : i ∈ squaresOf b) : i < 64 :=
  (mem_squaresOf.mp h).1

/-- An empty square holds no enemy piece. -/
theorem not_opp_of_empty (pos : Position) (c : Color) (i : Nat) (hi : i < 64)
    (h : (bbnot pos.piecesAll).testBit i = true) :
    (pos.pieces c.opp).testBit i = false := by
  rcases hB : (pos.pieces c.opp).testBit i
  · rfl
  · exact absurd ⟨hB, h⟩ (opp_not_empty pos c i hi)

/-- Every promotion move emitted by make_promotions lands on the given
square with the PROMOTION kind. -/
theorem make_promotions_shape (T : GenType) (d : Dir) (enemy : Bool) (tsq : Nat) (m : Move)
    (hm : m ∈ movesOf (make_promotions T d enemy tsq)) :
    m.toSq = tsq ∧ m.mtype = .PROMOTION := by
  unfold make_promotions at hm
  rw [mem_movesOf_append] at hm
  rcases hm with hm | hm <;> split at hm <;> simp [movesOf] at hm
  · subst hm
    exact ⟨rfl, rfl⟩
  · rcases hm with rfl | rfl | rfl <;> exact ⟨rfl, rfl⟩

/-- A CAPTURES push promotion is a queen promotion. -/
theorem make_promotions_C_push (d : Dir) (tsq : Nat) (m : Move)
    (hm : m ∈ movesOf (make_promotions .CAPTURES d false tsq)) :
    m.mtype = .PROMOTION ∧ m.promo = .QUEEN := by
  simp [make_promotions, movesOf] at hm
  subst hm
  exact ⟨rfl, rfl⟩

/-- A QUIETS push promotion is an under-promotion. -/
theorem make_promotions_Q_push (d : Dir) (tsq : Nat) (m : Move)
    (hm : m ∈ movesOf (make_promotions .QUIETS d false tsq)) :
    m.mtype = .PROMOTION ∧ m.promo ≠ .QUEEN := by
  simp [make_promotions, movesOf] at hm
  rcases hm with rfl | rfl | rfl <;> exact ⟨rfl, fun h => nomatch h⟩

/-- QUIETS emits no capturing promotions. -/
theorem make_promotions_Q_capture (d : Dir) (tsq : Nat) :
    make_promotions .QUIETS d true tsq = [] := rfl

/-- Moves of generate_moves land on the target set and are normal moves. -/
theorem generate_moves_shape (us : Color) (pt : PieceType) (T : GenType) (pos : Position)
    (target : Bitboard) (m : Move) (hm : m ∈ movesOf (generate_moves us pt T pos target)) :
    target.testBit m.toSq = true ∧ m.mtype = .NORMAL ∧ m.toSq < 64 := by
  simp only [generate_moves, movesOf, List.map_flatMap, List.mem_flatMap, List.map_map,
    Function.comp, List.mem_map] at hm
  obtain ⟨fr, hfr, t2, ht2, rfl⟩ := hm
  exact ⟨testBit_right_of_mem_land ht2, rfl, lt_64_of_mem_squaresOf ht2⟩

/-- King moves start on the king square, are normal, and land on the
mode's king target. -/
theorem kingMoves_shape (us : Color) (T : GenType) (pos : Position) (m : Move)
    (hm : m ∈ movesOf (kingMovesGen us T pos)) :
    m.fromSq = pos.kingSq us ∧ m.mtype = .NORMAL ∧ m.toSq < 64 ∧
      (if T = .EVASIONS then bbnot (pos.pieces us)
        else targetFor us T pos (pos.kingSq us)).testBit m.toSq = true := by
  simp only [kingMovesGen, movesOf, List.map_map, Function.comp, List.mem_map] at hm
  obtain ⟨t2, ht2, rfl⟩ := hm
  exact ⟨rfl, rfl, lt_64_of_mem_squaresOf ht2, testBit_right_of_mem_land ht2⟩

/-- Castling moves have the CASTLING kind and land on a castling rook
square of the moving side. -/
theorem castleGen_shape (us : Color) (T : GenType) (pos : Position) (m : Move)
    (hm : m ∈ movesOf (castleGen us T pos)) :
    m.mtype = .CASTLING ∧
      ∃ cr, m.toSq = pos.castlingRookSquareSide us cr := by
  unfold castleGen at hm
  split at hm
  · simp only [movesOf, List.mem_map, List.mem_filterMap] at hm
    obtain ⟨em, ⟨cr, hcr, hem⟩, rfl⟩ := hm
    split at hem
    · cases hem
      exact ⟨rfl, cr, rfl⟩
    · cases hem
  · simp [movesOf] at hm

/-- Membership in the moves of a mapped square list. -/
theorem mem_movesOf_map {α : Type} {S : List α} {g : α → ExtMove} {m : Move} :
    m ∈ movesOf (S.map g) ↔ ∃ i ∈ S, (g i).move = m := by
  simp [movesOf]

/-- Every CAPTURES promotion either captures an enemy piece or is a queen
promotion. -/
theorem pawnPromos_C_prop (us : Color) (pos : Position) (target : Bitboard) (m : Move)
    (hm : m ∈ movesOf (pawnPromosGen us .CAPTURES pos target)) :
    (pos.pieces us.opp).testBit m.toSq = true ∨ (m.mtype = .PROMOTION ∧ m.promo = .QUEEN) := by
  simp only [pawnPromosGen] at hm
  by_cases h7 : pos.byColorType us .PAWN &&& (if us = .WHITE then Rank7BB else Rank2BB) ≠ 0
  · rw [if_pos h7] at hm
    simp only [mem_movesOf_append, mem_movesOf_flatMap] at hm
    rcases hm with (⟨a, ha, hma⟩ | ⟨a, ha, hma⟩) | ⟨a, ha, hma⟩
    · have ht := testBit_right_of_mem_land ha
      rw [if_neg (by decide)] at ht
      rw [(make_promotions_shape _ _ _ _ _ hma).1]
      exact Or.inl ht
    · have ht := testBit_right_of_mem_land ha
      rw [if_neg (by decide)] at ht
      rw [(make_promotions_shape _ _ _ _ _ hma).1]
      exact Or.inl ht
    · exact Or.inr (make_promotions_C_push _ _ _ hma)
  · rw [if_neg h7] at hm
    simp [movesOf] at hm

/-- Every move of the CAPTURES pawn capture block captures an enemy piece
or is en passant. -/
theorem pawnCapsEp_C_prop (us : Color) (pos : Position) (target : Bitboard) (m : Move)
    (hm : m ∈ movesOf (pawnCapsEpGen us .CAPTURES pos target)) :
    (pos.pieces us.opp).testBit m.toSq = true ∨ m.mtype = .EN_PASSANT := by
  simp only [pawnCapsEpGen] at hm
  rw [if_pos (Or.inl trivial)] at hm
  rw [mem_movesOf_append] at hm
  rcases hm with hm | hm
  · rw [mem_movesOf_append] at hm
    rcases hm with hm | hm <;>
    · rw [mem_movesOf_map] at hm
      obtain ⟨a, ha, rfl⟩ := hm
      have ht := testBit_right_of_mem_land ha
      rw [if_neg (by decide)] at ht
      exact Or.inl ht
  · rcases hE : pos.epSquare with _ | e <;> rw [hE] at hm
    · simp [movesOf] at hm
    · split at hm
      · simp [movesOf] at hm
      · split at hm
        · simp [movesOf] at hm
        · rw [mem_movesOf_map] at hm
          obtain ⟨fr, hfr, rfl⟩ := hm
          exact Or.inr rfl

/-- C3 capture half: every CAPTURES move captures an enemy piece (en
passant included) or is a queen promotion. -/
theorem captures_prop (pos : Position) (m : Move)
    (hm : m ∈ movesOf (generate .CAPTURES pos)) :
    ((pos.pieces pos.sideToMove.opp).testBit m.toSq = true ∨ m.mtype = .EN_PASSANT) ∨
      (m.mtype = .PROMOTION ∧ m.promo = .QUEEN) := by
  simp only [generate, generate_all] at hm
  rw [if_pos (Or.inl (by decide) :
      GenType.CAPTURES ≠ .EVASIONS ∨ more_than_one pos.checkersBB = false),
    targetFor_C, castleGen_C] at hm
  simp only [mem_movesOf_append, generate_pawn_moves] at hm
  rcases hm with (((((((hm | hm) | hm) | hm) | hm) | hm) | hm) | hm) | hm
  · rw [pawnPushes_C] at hm
    simp [movesOf] at hm
  · rcases pawnPromos_C_prop _ _ _ _ hm with h | h
    · exact Or.inl (Or.inl h)
    · exact Or.inr h
  · rcases pawnCapsEp_C_prop _ _ _ _ hm with h | h
    · exact Or.inl (Or.inl h)
    · exact Or.inl (Or.inr h)
  · exact Or.inl (Or.inl (generate_moves_shape _ _ _ _ _ _ hm).1)
  · exact Or.inl (Or.inl (generate_moves_shape _ _ _ _ _ _ hm).1)
  · exact Or.inl (Or.inl (generate_moves_shape _ _ _ _ _ _ hm).1)
  · exact Or.inl (Or.inl (generate_moves_shape _ _ _ _ _ _ hm).1)
  · have hs := (kingMoves_shape _ _ _ _ hm).2.2.2
    rw [if_neg (by decide), targetFor_C] at hs
    exact Or.inl (Or.inl hs)
  · simp [movesOf] at hm

/-- QUIETS pawn pushes are normal moves onto empty squares. -/
theorem pawnPushes_Q_prop (us : Color) (pos : Position) (target : Bitboard) (m : Move)
    (hm : m ∈ movesOf (pawnPushesGen us .QUIETS pos target)) :
    m.mtype = .NORMAL ∧ (bbnot pos.piecesAll).testBit m.toSq = true ∧ m.toSq < 64 := by
  simp only [pawnPushesGen] at hm
  rw [if_pos (by decide : GenType.QUIETS ≠ .CAPTURES)] at hm
  rw [if_neg (by decide : ¬GenType.QUIETS = .EVASIONS)] at hm
  rw [if_neg (by decide : ¬GenType.QUIETS = .EVASIONS)] at hm
  rw [mem_movesOf_append] at hm
  rcases hm with hm | hm <;>
  · rw [mem_movesOf_map] at hm
    obtain ⟨a, ha, rfl⟩ := hm
    exact ⟨rfl, testBit_right_of_mem_land ha, lt_64_of_mem_squaresOf ha⟩

/-- QUIETS promotions are push under-promotions onto empty squares. -/
theorem pawnPromos_Q_prop (us : Color) (pos : Position) (target : Bitboard) (m : Move)
    (hm : m ∈ movesOf (pawnPromosGen us .QUIETS pos target)) :
    m.mtype = .PROMOTION ∧ m.promo ≠ .QUEEN ∧
      (bbnot pos.piecesAll).testBit m.toSq = true ∧ m.toSq < 64 := by
  simp only [pawnPromosGen] at hm
  by_cases h7 : pos.byColorType us .PAWN &&& (if us = .WHITE then Rank7BB else Rank2BB) ≠ 0
  · rw [if_pos h7] at hm
    rw [if_neg (by decide : ¬GenType.QUIETS = .EVASIONS)] at hm
    simp only [mem_movesOf_append, mem_movesOf_flatMap] at hm
    rcases hm with (⟨a, ha, hma⟩ | ⟨a, ha, hma⟩) | ⟨a, ha, hma⟩
    · rw [make_promotions_Q_capture] at hma
      simp [movesOf] at hma
    · rw [make_promotions_Q_capture] at hma
      simp [movesOf] at hma
    · have hs := make_promotions_shape _ _ _ _ _ hma
      have hq := make_promotions_Q_push _ _ _ hma
      rw [hs.1]
      exact ⟨hs.2, hq.2, testBit_right_of_mem_land ha, lt_64_of_mem_squaresOf ha⟩
  · rw [if_neg h7] at hm
    simp [movesOf] at hm

/-- C3 quiet half: no QUIETS move captures (en passant included) and none
is a queen promotion. -/
theorem quiets_prop (pos : Position) (hwf : WF pos) (m : Move)
    (hm : m ∈ movesOf (generate .QUIETS pos)) :
    ((pos.pieces pos.sideToMove.opp).testBit m.toSq = false ∧ m.mtype ≠ .EN_PASSANT) ∧
      ¬(m.mtype = .PROMOTION ∧ m.promo = .QUEEN) := by
  simp only [generate, generate_all] at hm
  rw [if_pos (Or.inl (by decide) :
      GenType.QUIETS ≠ .EVASIONS ∨ more_than_one pos.checkersBB = false),
    targetFor_Q] at hm
  simp only [mem_movesOf_append, generate_pawn_moves] at hm
  rcases hm with (((((((hm | hm) | hm) | hm) | hm) | hm) | hm) | hm) | hm
  · obtain ⟨h1, h2, h3⟩ := pawnPushes_Q_prop _ _ _ _ hm
    refine ⟨⟨not_opp_of_empty pos _ _ h3 h2, ?_⟩, ?_⟩ <;> simp [h1]
  · obtain ⟨h1, h2, h3, h4⟩ := pawnPromos_Q_prop _ _ _ _ hm
    exact ⟨⟨not_opp_of_empty pos _ _ h4 h3, by simp [h1]⟩, fun hc => h2 hc.2⟩
  · rw [pawnCapsEp_Q] at hm
    simp [movesOf] at hm
  · obtain ⟨h1, h2, h3⟩ := generate_moves_shape _ _ _ _ _ _ hm
    refine ⟨⟨not_opp_of_empty pos _ _ h3 h1, ?_⟩, ?_⟩ <;> simp [h2]
  · obtain ⟨h1, h2, h3⟩ := generate_moves_shape _ _ _ _ _ _ hm
    refine ⟨⟨not_opp_of_empty pos _ _ h3 h1, ?_⟩, ?_⟩ <;> simp [h2]
  · obtain ⟨h1, h2, h3⟩ := generate_moves_shape _ _ _ _ _ _ hm
    refine ⟨⟨not_opp_of_empty pos _ _ h3 h1, ?_⟩, ?_⟩ <;> simp [h2]
  · obtain ⟨h1, h2, h3⟩ := generate_moves_shape _ _ _ _ _ _ hm
    refine ⟨⟨not_opp_of_empty pos _ _ h3 h1, ?_⟩, ?_⟩ <;> simp [h2]
  · obtain ⟨h1, h2, h3, h4⟩ := kingMoves_shape _ _ _ _ hm
    rw [if_neg (by decide : ¬GenType.QUIETS = .EVASIONS), targetFor_Q] at h4
    refine ⟨⟨not_opp_of_empty pos _ _ h3 h4, ?_⟩, ?_⟩ <;> simp [h2]
  · obtain ⟨h1, cr, hcr⟩ := castleGen_shape _ _ _ _ hm
    refine ⟨⟨?_, ?_⟩, ?_⟩
    · rw [hcr]
      exact hwf.2 pos.sideToMove cr
    · simp [h1]
    · simp [h1]

/-- EVASIONS pawn pushes land on the blocking target set. -/
theorem pawnPushes_EV_prop (us : Color) (pos : Position) (target : Bitboard) (m : Move)
    (hm : m ∈ movesOf (pawnPushesGen us .EVASIONS pos target)) :
    target.testBit m.toSq = true := by
  simp only [pawnPushesGen] at hm
  rw [if_pos (by decide : GenType.EVASIONS ≠ GenType.CAPTURES)] at hm
  rw [mem_movesOf_append] at hm
  rcases hm with hm | hm <;>
  · rw [mem_movesOf_map] at hm
    obtain ⟨a, ha, rfl⟩ := hm
    exact testBit_right_of_mem_land ha

/-- EVASIONS promotions capture the checker or land on the blocking
target set. -/
theorem pawnPromos_EV_prop (us : Color) (pos : Position) (target : Bitboard) (m : Move)
    (hm : m ∈ movesOf (pawnPromosGen us .EVASIONS pos target)) :
    pos.checkersBB.testBit m.toSq = true ∨ target.testBit m.toSq = true := by
  simp only [pawnPromosGen] at hm
  by_cases h7 : pos.byColorType us .PAWN &&& (if us = .WHITE then Rank7BB else Rank2BB) ≠ 0
  · rw [if_pos h7] at hm
    simp only [mem_movesOf_append, mem_movesOf_flatMap] at hm
    rcases hm with (⟨a, ha, hma⟩ | ⟨a, ha, hma⟩) | ⟨a, ha, hma⟩ <;>
      rw [(make_promotions_shape _ _ _ _ _ hma).1]
    · exact Or.inl (testBit_right_of_mem_land ha)
    · exact Or.inl (testBit_right_of_mem_land ha)
    · exact Or.inr (testBit_right_of_mem_land ha)
  · rw [if_neg h7] at hm
    simp [movesOf] at hm

/-- EVASIONS pawn captures take the checker; en passant is only emitted
when the vacated square is off the check ray, and lands on the recorded en
passant square. -/
theorem pawnCapsEp_EV_prop (us : Color) (pos : Position) (target : Bitboard) (m : Move)
    (hm : m ∈ movesOf (pawnCapsEpGen us .EVASIONS pos target)) :
    pos.checkersBB.testBit m.toSq = true ∨
      (m.mtype = .EN_PASSANT ∧ pos.epSquare = some m.toSq ∧
        target.testBit (addDir m.toSq (upDir us)) = false) := by
  simp only [pawnCapsEpGen] at hm
  rw [if_pos (Or.inr (Or.inl trivial))] at hm
  rw [mem_movesOf_append] at hm
  rcases hm with hm | hm
  · rw [mem_movesOf_append] at hm
    rcases hm with hm | hm <;>
    · rw [mem_movesOf_map] at hm
      obtain ⟨a, ha, rfl⟩ := hm
      exact Or.inl (testBit_right_of_mem_land ha)
  · rcases hE : pos.epSquare with _ | e <;> rw [hE] at hm
    · simp [movesOf] at hm
    · split at hm
      · simp [movesOf] at hm
      · rename_i t heq
        injection heq with he
        subst he
        split at hm
        · simp [movesOf] at hm
        · rename_i hguard
          have hbit : target.testBit (addDir e (upDir us)) = false := by
            rcases h9 : target.testBit (addDir e (upDir us))
            · rfl
            · exact absurd ⟨trivial, h9⟩ hguard
          rw [mem_movesOf_map] at hm
          obtain ⟨fr, hfr, rfl⟩ := hm
          exact Or.inr ⟨rfl, rfl, hbit⟩

/-- Modelled from the spec: validity of the recorded en passant square in
check positions.  The last move was the double push of the pawn standing
one square behind the en passant square, so in single check either that
pawn is the checker, or the check was discovered along a ray through the
square the pawn vacated (which lies on the king-checker ray). -/
def epEvasionOk (pos : Position) : Bool :=
  match pos.epSquare with
  | none => true
  | some e =>
    more_than_one pos.checkersBB || (pos.checkersBB == 0) ||
      (between_bb (pos.kingSq pos.sideToMove) (lsbSq pos.checkersBB)).testBit
        (addDir e (upDir pos.sideToMove)) ||
      pos.checkersBB.testBit (subDir e (upDir pos.sideToMove))

/-- The C2 conclusion: under double check only king moves are generated;
under single check every generated move is a king move, lands on the ray
between king and checker, captures the checker, or is an en passant
capture whose captured pawn is the checker. -/
def evasionsSpecHolds (pos : Position) : Prop :=
  (more_than_one pos.checkersBB = true →
    ∀ m ∈ movesOf (generate .EVASIONS pos), m.fromSq = pos.kingSq pos.sideToMove) ∧
  (more_than_one pos.checkersBB = false →
    ∀ m ∈ movesOf (generate .EVASIONS pos),
      m.fromSq = pos.kingSq pos.sideToMove ∨
      (between_bb (pos.kingSq pos.sideToMove) (lsbSq pos.checkersBB)).testBit m.toSq = true ∨
      pos.checkersBB.testBit m.toSq = true ∨
      (m.mtype = .EN_PASSANT ∧
        pos.checkersBB.testBit (subDir m.toSq (upDir pos.sideToMove)) = true))

/-- C2 core, split from the claim theorem so that it can be reused. -/
theorem evasions_core (pos : Position) (hchk : pos.checkersBB ≠ 0)
    (hep : epEvasionOk pos = true) : evasionsSpecHolds pos := by
  constructor
  · intro hdbl m hm
    simp only [generate, generate_all] at hm
    rw [if_neg (by simp [hdbl]), castleGen_EV] at hm
    simp only [mem_movesOf_append] at hm
    rcases hm with (hm | hm) | hm
    · simp [movesOf] at hm
    · exact (kingMoves_shape _ _ _ _ hm).1
    · simp [movesOf] at hm
  · intro hsng m hm
    simp only [generate, generate_all] at hm
    rw [if_pos (Or.inr hsng), targetFor_EV, castleGen_EV] at hm
    simp only [mem_movesOf_append, generate_pawn_moves] at hm
    rcases hm with (((((((hm | hm) | hm) | hm) | hm) | hm) | hm) | hm) | hm
    · exact Or.inr (Or.inl (pawnPushes_EV_prop _ _ _ _ hm))
    · rcases pawnPromos_EV_prop _ _ _ _ hm with h | h
      · exact Or.inr (Or.inr (Or.inl h))
      · exact Or.inr (Or.inl h)
    · rcases pawnCapsEp_EV_prop _ _ _ _ hm with h | ⟨hEP, hsome, hguard⟩
      · exact Or.inr (Or.inr (Or.inl h))
      · refine Or.inr (Or.inr (Or.inr ⟨hEP, ?_⟩))
        unfold epEvasionOk at hep
        rw [hsome] at hep
        simp only [Bool.or_eq_true] at hep
        rcases hep with ((h1 | h2) | h3) | h4
        · rw [hsng] at h1
          cases h1
        · simp only [beq_iff_eq] at h2
          exact absurd h2 hchk
        · rw [hguard] at h3
          cases h3
        · exact h4
    · exact Or.inr (Or.inl (generate_moves_shape _ _ _ _ _ _ hm).1)
    · exact Or.inr (Or.inl (generate_moves_shape _ _ _ _ _ _ hm).1)
    · exact Or.inr (Or.inl (generate_moves_shape _ _ _ _ _ _ hm).1)
    · exact Or.inr (Or.inl (generate_moves_shape _ _ _ _ _ _ hm).1)
    · exact Or.inl (kingMoves_shape _ _ _ _ hm).1
    · simp [movesOf] at hm

/-- The C3 conclusion: every CAPTURES move captures an enemy piece (en
passant included) or is a queen promotion; no QUIETS move captures or is a
queen promotion. -/
def capturesQuietsSpecHolds (pos : Position) : Prop :=
  (∀ m ∈ movesOf (generate .CAPTURES pos),
    ((pos.pieces pos.sideToMove.opp).testBit m.toSq = true ∨ m.mtype = .EN_PASSANT) ∨
      (m.mtype = .PROMOTION ∧ m.promo = .QUEEN)) ∧
  (∀ m ∈ movesOf (generate .QUIETS pos),
    ((pos.pieces pos.sideToMove.opp).testBit m.toSq = false ∧ m.mtype ≠ .EN_PASSANT) ∧
      ¬(m.mtype = .PROMOTION ∧ m.promo = .QUEEN))

/-- The C5 conclusion: the NON_EVASIONS move set (scores ignored) is the
union of the CAPTURES and QUIETS move sets, and those two are disjoint. -/
def nonEvasionsUnionHolds (pos : Position) : Prop :=
  (movesOf (generate .NON_EVASIONS pos)).toFinset =
    (movesOf (generate .CAPTURES pos)).toFinset ∪ (movesOf (generate .QUIETS pos)).toFinset ∧
  Disjoint (movesOf (generate .CAPTURES pos)).toFinset (movesOf (generate .QUIETS pos)).toFinset

/-- C2: under EVASIONS, with the side to move in check, every non-king move
lands on the ray between the king and the single checker or captures the
checker (en passant capturing the checking double-pushed pawn included),
and in double check only king moves are generated. -/
theorem evasions_mode_spec (pos : Position) (hchk : pos.checkersBB ≠ 0)
    (hep : epEvasionOk pos = true) : evasionsSpecHolds pos :=
  evasions_core pos hchk hep

/-- C3: every CAPTURES move captures an enemy piece (en passant included)
or is a queen promotion, and every QUIETS move neither captures nor is a
queen promotion. -/
theorem captures_quiets_spec (pos : Position) (hwf : WF pos)
    (_hnc : pos.checkersBB = 0) : capturesQuietsSpecHolds pos :=
  ⟨fun m hm => captures_prop pos m hm, fun m hm => quiets_prop pos hwf m hm⟩

/-- C5: the NON_EVASIONS move set equals the union of the CAPTURES and
QUIETS move sets (ordering scores ignored), and no move is generated by
both CAPTURES and QUIETS. -/
theorem nonevasions_union_spec (pos : Position) (hwf : WF pos)
    (_hnc : pos.checkersBB = 0) : nonEvasionsUnionHolds pos := by
  constructor
  · ext m
    rw [Finset.mem_union, List.mem_toFinset, List.mem_toFinset, List.mem_toFinset]
    exact generate_NE_union pos hwf m
  · rw [Finset.disjoint_left]
    intro m hmC hmQ
    have hc := captures_prop pos m (List.mem_toFinset.mp hmC)
    have hq := quiets_prop pos hwf m (List.mem_toFinset.mp hmQ)
    rcases hc with (h | h) | h
    · rw [hq.1.1] at h
      cases h
    · exact hq.1.2 h
    · exact hq.2 h

/-- A small position with White to move and not in check: White Ke1, Rh1,
Pa2 with king-side castling rights, Black Kg8 and Pb3. -/
def P3q : Position where
  byColorType := fun c pt =>
    match c, pt with
    | .WHITE, .PAWN => 1 <<< 8
    | .WHITE, .ROOK => 1 <<< 7
    | .WHITE, .KING => 1 <<< 4
    | .BLACK, .PAWN => 1 <<< 17
    | .BLACK, .KING => 1 <<< 62
    | _, _ => 0
  sideToMove := .WHITE
  epSquare := none
  checkersBB := 0
  blockersForKing := fun _ => 0
  canCastleSide := fun c si =>
    match c, si with
    | .WHITE, .KING_SIDE => true
    | _, _ => false
  castlingImpededSide := fun _ _ => false
  castlingRookSquareSide := fun c si =>
    match c, si with
    | .WHITE, .KING_SIDE => 7
    | .WHITE, .QUEEN_SIDE => 0
    | .BLACK, .KING_SIDE => 63
    | .BLACK, .QUEEN_SIDE => 56
  legalOracle := fun _ => true
  rule50 := 0

/-- A small position with White to move in single check: White Ke1 and Nb1,
Black Re8 and Kg8 giving check along the e-file. -/
def P2ck : Position where
  byColorType := fun c pt =>
    match c, pt with
    | .WHITE, .KNIGHT => 1 <<< 1
    | .WHITE, .KING => 1 <<< 4
    | .BLACK, .ROOK => 1 <<< 60
    | .BLACK, .KING => 1 <<< 62
    | _, _ => 0
  sideToMove := .WHITE
  epSquare := none
  checkersBB := 1 <<< 60
  blockersForKing := fun _ => 0
  canCastleSide := fun _ _ => false
  castlingImpededSide := fun _ _ => false
  castlingRookSquareSide := fun _ _ => 0
  legalOracle := fun _ => true
  rule50 := 0

/-- Witness for C2 at the concrete in-check position. -/
theorem evasions_mode_spec_witness :
    P2ck.checkersBB ≠ 0 ∧ epEvasionOk P2ck = true ∧ evasionsSpecHolds P2ck :=
  ⟨by decide, by decide, evasions_mode_spec P2ck (by decide) (by decide)⟩

/-- Witness for C3 at the concrete quiet position. -/
theorem captures_quiets_spec_witness :
    WF P3q ∧ P3q.checkersBB = 0 ∧ capturesQuietsSpecHolds P3q :=
  ⟨by decide, rfl, captures_quiets_spec P3q (by decide) rfl⟩

/-- Witness for C5 at the concrete quiet position. -/
theorem nonevasions_union_spec_witness :
    WF P3q ∧ P3q.checkersBB = 0 ∧ nonEvasionsUnionHolds P3q :=
  ⟨by decide, rfl, nonevasions_union_spec P3q (by decide) rfl⟩

/-- Modelled from the spec: the piece values of types.h used by the
material queries of the Position collaborator. -/
def PawnValue : Int := 208

def KnightValue : Int := 781

def BishopValue : Int := 825

def RookValue : Int := 1276

def QueenValue : Int := 2538

/-- pos.count of a piece type for one color (derived from the board, as in
position.h). -/
def Position.countPT (pos : Position) (c : Color) (pt : PieceType) : Int :=
  (popcountBB (pos.byColorType c pt) : Int)

/-- pos.non_pawn_material of one color (derived from the board, as in
position.h). -/
def Position.non_pawn_material (pos : Position) (c : Color) : Int :=
  KnightValue * pos.countPT c .KNIGHT + BishopValue * pos.countPT c .BISHOP +
    RookValue * pos.countPT c .ROOK + QueenValue * pos.countPT c .QUEEN

/-- Eval.simple_eval of evaluate.cpp: a purely materialistic score from
the side to move's point of view. -/
def simple_eval (pos : Position) : Int :=
  PawnValue * (pos.countPT pos.sideToMove .PAWN - pos.countPT pos.sideToMove.opp .PAWN) +
    (pos.non_pawn_material pos.sideToMove - pos.non_pawn_material pos.sideToMove.opp)

/-- Eval.use_smallnet of evaluate.cpp: the small network is selected when
the materialistic estimate clears a threshold raised by 80 when the
previous frame used the big network. -/
def use_smallnet (pos : Position) (last_big : Bool) : Bool :=
  decide (900 + 80 * (if last_big then (1 : Int) else 0) < |simple_eval pos|)

/-- Modelled from the spec: the two network evaluators (external
collaborators), each returning a (psqt, positional) pair; kept abstract as
arbitrary functions of the position, which also models the determinism the
spec requires of them. -/
structure Networks where
  big : Position → Int × Int
  small : Position → Int × Int

/-- Modelled from the spec: the accumulator stack collaborator, exposing
its frame count and which frames hold fully computed big-network
accumulators per color. -/
structure AccumulatorStack where
  size : Nat
  computedBig : Nat → Color → Bool

/-- The last_big flag computed at the top of Eval.evaluate: the frame
below the current one has fully computed big-network accumulators for both
colors. -/
def lastBigOf (accs : AccumulatorStack) : Bool :=
  decide (accs.size > 1) && accs.computedBig (accs.size - 2) .BLACK &&
    accs.computedBig (accs.size - 2) .WHITE

/-- Modelled from the spec: the tablebase sentinel bounds of types.h. -/
def VALUE_MATE : Int := 32000

def MAX_PLY : Int := 246

def VALUE_MATE_IN_MAX_PLY : Int := VALUE_MATE - MAX_PLY

def VALUE_TB : Int := VALUE_MATE_IN_MAX_PLY - 1

def VALUE_TB_WIN_IN_MAX_PLY : Int := VALUE_TB - MAX_PLY

def VALUE_TB_LOSS_IN_MAX_PLY : Int := -VALUE_TB_WIN_IN_MAX_PLY

/-- std::clamp. -/
def clampInt (v lo hi : Int) : Int := if v < lo then lo else if hi < v then hi else v

/-- The fifty-move damping line of Eval.evaluate:
v -= v * pos.rule50_count() / 212 (C++ division truncates toward zero). -/
def rule50Damp (v r : Int) : Int := v - (v * r).tdiv 212

/-- The tail of Eval.evaluate after the network pair is fixed: blend the
sub-scores, mix in optimism scaled by complexity and material, damp by the
rule-50 counter and clamp into the sentinel range. -/
def finishEval (pos : Position) (psqt positional optimism : Int) : Int :=
  let nnue := (125 * psqt + 131 * positional).tdiv 128
  let nnueComplexity := |psqt - positional|
  let optimism2 := optimism + (optimism * nnueComplexity).tdiv 468
  let nnue2 := nnue - (nnue * nnueComplexity).tdiv 18000
  let material := 535 * (pos.countPT .WHITE .PAWN + pos.countPT .BLACK .PAWN) +
    (pos.non_pawn_material .WHITE + pos.non_pawn_material .BLACK)
  let v := (nnue2 * (77777 + material) + optimism2 * (7777 + material)).tdiv 77777
  let v2 := rule50Damp v pos.rule50
  clampInt v2 (VALUE_TB_LOSS_IN_MAX_PLY + 1) (VALUE_TB_WIN_IN_MAX_PLY - 1)

/-- Eval.evaluate of evaluate.cpp: select a network by material with
hysteresis, blend its pair, re-evaluate with the big network when the small
network was used and the blend is within 236 of zero, then finish. -/
def evaluate (networks : Networks) (pos : Position) (accs : AccumulatorStack)
    (optimism : Int) : Int :=
  let last_big := lastBigOf accs
  let smallNet := use_smallnet pos last_big
  let pq := if smallNet then networks.small pos else networks.big pos
  let nnue := (125 * pq.1 + 131 * pq.2).tdiv 128
  if smallNet && decide (|nnue| < 236) then
    finishEval pos (networks.big pos).1 (networks.big pos).2 optimism
  else
    finishEval pos pq.1 pq.2 optimism

/-- Eval.evaluate with the big network forced, as after the re-evaluation
step. -/
def evaluateForcedBig (networks : Networks) (pos : Position) (optimism : Int) : Int :=
  finishEval pos (networks.big pos).1 (networks.big pos).2 optimism

/-- The blended score of the small network, as computed before the
re-evaluation test. -/
def smallNnueOf (networks : Networks) (pos : Position) : Int :=
  (125 * (networks.small pos).1 + 131 * (networks.small pos).2).tdiv 128

/-- The clamp keeps every value strictly inside the sentinel bounds. -/
theorem clamp_strict (v : Int) :
    VALUE_TB_LOSS_IN_MAX_PLY <
        clampInt v (VALUE_TB_LOSS_IN_MAX_PLY + 1) (VALUE_TB_WIN_IN_MAX_PLY - 1) ∧
      clampInt v (VALUE_TB_LOSS_IN_MAX_PLY + 1) (VALUE_TB_WIN_IN_MAX_PLY - 1) <
        VALUE_TB_WIN_IN_MAX_PLY := by
  simp only [clampInt, VALUE_TB_LOSS_IN_MAX_PLY, VALUE_TB_WIN_IN_MAX_PLY, VALUE_TB,
    VALUE_MATE_IN_MAX_PLY, VALUE_MATE, MAX_PLY]
  split
  · omega
  · split <;> omega

/-- finishEval is the clamp of its pre-clamp value. -/
theorem finishEval_bounds (pos : Position) (psqt positional optimism : Int) :
    VALUE_TB_LOSS_IN_MAX_PLY < finishEval pos psqt positional optimism ∧
      finishEval pos psqt positional optimism < VALUE_TB_WIN_IN_MAX_PLY := by
  unfold finishEval
  exact clamp_strict _

/-- C4: Eval.evaluate always returns a value strictly inside the reserved
tablebase sentinel range, enforced by the final clamp. -/
theorem evaluate_within_tb_bounds (networks : Networks) (pos : Position)
    (accs : AccumulatorStack) (optimism : Int) (_hnc : pos.checkersBB = 0) :
    VALUE_TB_LOSS_IN_MAX_PLY < evaluate networks pos accs optimism ∧
      evaluate networks pos accs optimism < VALUE_TB_WIN_IN_MAX_PLY := by
  simp only [evaluate]
  constructor <;> split <;> try split
  all_goals
    first
      | exact (finishEval_bounds _ _ _ _).1
      | exact (finishEval_bounds _ _ _ _).2

/-- C6: the small network is selected exactly when the materialistic
estimate clears the hysteresis threshold (which is strictly higher when
the previous frame had fully computed big accumulators for both colors),
and when the small network was selected but its blend is within the
near-zero band the big-network evaluation replaces it. -/
theorem smallnet_selection_and_reeval (networks : Networks) (pos : Position)
    (accs : AccumulatorStack) (optimism : Int)
    (hsel : use_smallnet pos (lastBigOf accs) = true)
    (hband : |smallNnueOf networks pos| < 236) :
    evaluate networks pos accs optimism = evaluateForcedBig networks pos optimism ∧
    (∀ (p : Position) (lb : Bool),
      use_smallnet p lb = true ↔ 900 + 80 * (if lb then (1 : Int) else 0) < |simple_eval p|) ∧
    (900 + 80 * (0 : Int) < 900 + 80 * 1) ∧
    (lastBigOf accs = true ↔ accs.size > 1 ∧
      accs.computedBig (accs.size - 2) .BLACK = true ∧
      accs.computedBig (accs.size - 2) .WHITE = true) := by
  refine ⟨?_, fun p lb => by simp [use_smallnet], by norm_num,
    by simp [lastBigOf, Bool.and_eq_true, and_assoc]⟩
  simp only [evaluate, evaluateForcedBig]
  rw [hsel]
  have hb : decide (|(125 * (networks.small pos).1 + 131 * (networks.small pos).2).tdiv 128| <
      236) = true := by
    rw [decide_eq_true_iff]
    exact hband
  simp [hb]

/-- A position with enough material imbalance that White selects the small
network, used as the C6 witness. -/
def P6mat : Position where
  byColorType := fun c pt =>
    match c, pt with
    | .WHITE, .PAWN => 0x3F00
    | .WHITE, .KING => 1 <<< 4
    | .BLACK, .KING => 1 <<< 62
    | _, _ => 0
  sideToMove := .WHITE
  epSquare := none
  checkersBB := 0
  blockersForKing := fun _ => 0
  canCastleSide := fun _ _ => false
  castlingImpededSide := fun _ _ => false
  castlingRookSquareSide := fun _ _ => 0
  legalOracle := fun _ => true
  rule50 := 0

/-- Trivial networks returning zero pairs, used as the C6 witness. -/
def zeroNets : Networks where
  big := fun _ => (0, 0)
  small := fun _ => (0, 0)

/-- An empty accumulator stack, used by the witnesses. -/
def emptyAccs : AccumulatorStack where
  size := 0
  computedBig := fun _ _ => false

/-- Witness for C6 at a concrete position, network pair and stack. -/
theorem smallnet_selection_and_reeval_witness :
    use_smallnet P6mat (lastBigOf emptyAccs) = true ∧
      |smallNnueOf zeroNets P6mat| < 236 ∧
      evaluate zeroNets P6mat emptyAccs 0 = evaluateForcedBig zeroNets P6mat 0 :=
  ⟨by decide, by decide,
    (smallnet_selection_and_reeval zeroNets P6mat emptyAccs 0 (by decide) (by decide)).1⟩

/-- Witness for C4 at a concrete input. -/
theorem evaluate_within_tb_bounds_witness :
    P6mat.checkersBB = 0 ∧
      VALUE_TB_LOSS_IN_MAX_PLY < evaluate zeroNets P6mat emptyAccs 0 ∧
      evaluate zeroNets P6mat emptyAccs 0 < VALUE_TB_WIN_IN_MAX_PLY :=
  ⟨rfl, evaluate_within_tb_bounds zeroNets P6mat emptyAccs 0 rfl⟩

/-- C7 counterexample: at the rule-50 limit of 100 half-moves the damping
line keeps well over half of the magnitude (factor 112/212), nowhere near
zero. -/
theorem rule50_damp_not_near_total :
    rule50Damp 21200 100 = 11200 ∧ (21200 : Int) / 2 < 11200 := by decide

/-- C7 amended: the damping is linear in the rule-50 counter with slope
v/212 per half-move and odd in v; over the rule-50 range it removes at
most the fraction 100/212 of the magnitude, so at the limit of 100
half-moves the result still has about 112/212 of the original magnitude
(not near zero). -/
theorem rule50_damp_linear_bounds (v r : Int) :
    (0 ≤ v → 0 ≤ r → r ≤ 100 →
      (112 * v).tdiv 212 ≤ rule50Damp v r ∧ rule50Damp v r ≤ v) ∧
    rule50Damp (-v) r = -rule50Damp v r := by
  constructor
  · intro hv hr hr2
    unfold rule50Damp
    rw [Int.tdiv_eq_ediv (by positivity) (by omega),
      Int.tdiv_eq_ediv (by positivity) (by omega)]
    have h1 : v * r ≤ 100 * v := by nlinarith
    have h2 : (v * r) / 212 ≤ (100 * v) / 212 := Int.ediv_le_ediv (by omega) h1
    have h3 : 0 ≤ (v * r) / 212 := Int.ediv_nonneg (by positivity) (by omega)
    generalize (v * r) / 212 = t at h2 h3
    omega
  · unfold rule50Damp
    rw [Int.neg_mul, Int.neg_tdiv]
    ring

/-- Witness for the amended C7 at a concrete value and counter. -/
theorem rule50_damp_linear_bounds_witness :
    (0 : Int) ≤ 21200 ∧ (0 : Int) ≤ 100 ∧ (100 : Int) ≤ 100 ∧
      ((112 * 21200 : Int).tdiv 212 ≤ rule50Damp 21200 100 ∧
        rule50Damp 21200 100 ≤ 21200) :=
  ⟨by decide, by decide, by decide,
    (rule50_damp_linear_bounds 21200 100).1 (by decide) (by decide) (by decide)⟩

/-- Modelled from the spec: the helpers Eval.trace consumes that are not in
the excerpt: the NNUE trace table renderer and the centipawn conversion of
the UCI layer. -/
structure TraceAux where
  nnueTraceStr : Position → String
  to_cp : Int → Position → Int

/-- Eval.trace of evaluate.cpp: an early return with a fixed string when
the side to move is in check; otherwise a rendering of the big-network
evaluation and of Eval.evaluate from White's point of view (numeric
formatting abstracted into TraceAux). -/
def trace (pos : Position) (networks : Networks) (aux : TraceAux) : String :=
  if pos.checkersBB ≠ 0 then "Final evaluation: none (in check)"
  else
    let accs : AccumulatorStack := ⟨0, fun _ _ => false⟩
    let pq := networks.big pos
    let v0 := pq.1 + pq.2
    let v0 := if pos.sideToMove = .WHITE then v0 else -v0
    let v1 := evaluate networks pos accs 0
    let v1 := if pos.sideToMove = .WHITE then v1 else -v1
    "\n" ++ aux.nnueTraceStr pos ++ "\nNNUE evaluation        " ++
      toString (aux.to_cp v0 pos) ++ " (white side)\nFinal evaluation       " ++
      toString (aux.to_cp v1 pos) ++ " (white side) [with scaled NNUE, ...]\n"

/-- C10: unlike Eval.evaluate, Eval.trace has no not-in-check
precondition: in check it returns the fixed string without consulting the
networks or the evaluator (its result is independent of them). -/
theorem trace_in_check (pos : Position) (hchk : pos.checkersBB ≠ 0) :
    (∀ (networks : Networks) (aux : TraceAux),
      trace pos networks aux = "Final evaluation: none (in check)") ∧
    (∀ (n1 : Networks) (a1 : TraceAux) (n2 : Networks) (a2 : TraceAux),
      trace pos n1 a1 = trace pos n2 a2) := by
  constructor
  · intro networks aux
    unfold trace
    rw [if_pos hchk]
  · intro n1 a1 n2 a2
    unfold trace
    rw [if_pos hchk, if_pos hchk]

/-- Witness for C10 at a concrete in-check position. -/
theorem trace_in_check_witness :
    P2ck.checkersBB ≠ 0 ∧
      ∀ (networks : Networks) (aux : TraceAux),
        trace P2ck networks aux = "Final evaluation: none (in check)" :=
  ⟨by decide, (trace_in_check P2ck (by decide)).1⟩

/-- The test of the spec's king-or-pawn flag: the moving piece of a move is
a pawn of the side to move or the move starts on its king square. -/
def isKingOrPawnMove (pos : Position) (m : Move) : Bool :=
  (pos.byColorType pos.sideToMove .PAWN).testBit m.fromSq ||
    m.fromSq == pos.kingSq pos.sideToMove

/-- Modelled from the spec: the tuple-returning generate declared in
movegen.h, whose definition is not part of the excerpt.  It returns the
generated list together with a flag recording whether any generated move is
a king move or a pawn move; the threats bitboard parameter is not given a
meaning by the spec and is unused. -/
def generateWithFlag (T : GenType) (pos : Position) (_threats : Bitboard) :
    List ExtMove × Bool :=
  let l := generate T pos
  (l, l.any (fun em => isKingOrPawnMove pos em.move))

/-- The MoveList wrapper of movegen.h: the generated moves and the
king-or-pawn flag, populated once from generateWithFlag. -/
structure MoveList where
  moves : List Move
  king_pawn_move : Bool

/-- The MoveList constructor of movegen.h. -/
def MoveList.ofPosition (T : GenType) (pos : Position) (threats : Bitboard) : MoveList :=
  let r := generateWithFlag T pos threats
  ⟨movesOf r.1, r.2⟩

/-- MoveList.has_king_or_pawn_move of movegen.h. -/
def MoveList.has_king_or_pawn_move (ml : MoveList) : Bool := ml.king_pawn_move

/-- C8: the flag returned by generateWithFlag, and exposed unchanged by
MoveList.has_king_or_pawn_move, is true exactly when some generated move is
a king move or a pawn move. -/
theorem movelist_flag_spec (T : GenType) (pos : Position) (threats : Bitboard) :
    ((MoveList.ofPosition T pos threats).has_king_or_pawn_move = true ↔
      ∃ em ∈ generate T pos, isKingOrPawnMove pos em.move = true) ∧
    (generateWithFlag T pos threats).2 =
      (MoveList.ofPosition T pos threats).has_king_or_pawn_move ∧
    (MoveList.ofPosition T pos threats).moves = movesOf (generate T pos) := by
  refine ⟨?_, rfl, rfl⟩
  simp [MoveList.ofPosition, MoveList.has_king_or_pawn_move, generateWithFlag,
    List.any_eq_true]

/-- Modelled from the spec: validity of the recorded en passant square
outside the block structure: it sits on the relative sixth rank and some
pawn of the side to move attacks it (position.cpp only records an en
passant square when an en passant capture is at least pseudo-legal). -/
def epValid (pos : Position) : Bool :=
  match pos.epSquare with
  | none => true
  | some e =>
    (rankOf e == if pos.sideToMove = .WHITE then 5 else 2) &&
      ((pos.byColorType pos.sideToMove .PAWN &&&
        pawn_attacks_bb pos.sideToMove.opp e) != 0)

/-- Pawn attack sets fit in the 64-bit board. -/
theorem pawn_attacks_lt : ∀ (c : Color), ∀ e < 64, pawn_attacks_bb c e < 2 ^ 64 := by decide

/-- A pawn attacking the relative sixth rank stands on the relative fifth
rank, never on the relative seventh. -/
theorem pawn_attacker_not_on_rank7 :
    ∀ (us : Color), ∀ e < 64, rankOf e = (if us = .WHITE then 5 else 2) →
      ∀ st < 64, (pawn_attacks_bb us.opp e).testBit st = true →
        (if us = .WHITE then Rank7BB else Rank2BB).testBit st = false := by decide

/-- C9: in a valid position with a recorded en passant square, some pawn of
the side to move that is not on the relative seventh rank attacks it, so
the bitboard tested by the assert before emitting en passant moves is
nonempty and the assert can never fire. -/
theorem ep_assert_never_fires (pos : Position) (hv : epValid pos = true) (e : Nat)
    (he : pos.epSquare = some e) :
    (pos.byColorType pos.sideToMove .PAWN &&&
        bbnot (if pos.sideToMove = .WHITE then Rank7BB else Rank2BB)) &&&
      pawn_attacks_bb pos.sideToMove.opp e ≠ 0 := by
  unfold epValid at hv
  rw [he] at hv
  simp only [Bool.and_eq_true, beq_iff_eq, bne_iff_ne, ne_eq] at hv
  obtain ⟨hrank, hne⟩ := hv
  have hex : ∃ st, (pos.byColorType pos.sideToMove .PAWN &&&
      pawn_attacks_bb pos.sideToMove.opp e).testBit st = true := by
    by_contra hall
    push_neg at hall
    refine hne (Nat.eq_of_testBit_eq fun i => ?_)
    rw [Nat.zero_testBit]
    rcases h0 : (pos.byColorType pos.sideToMove .PAWN &&&
        pawn_attacks_bb pos.sideToMove.opp e).testBit i
    · rfl
    · exact absurd h0 (hall i)
  obtain ⟨st, hst⟩ := hex
  simp only [Nat.testBit_land, Bool.and_eq_true] at hst
  obtain ⟨hst1, hst2⟩ := hst
  have he64 : e < 64 := by
    unfold rankOf at hrank
    split at hrank <;> omega
  have hst64 : st < 64 := by
    by_contra h64
    push_neg at h64
    have hlt := pawn_attacks_lt pos.sideToMove.opp e he64
    have hfalse : (pawn_attacks_bb pos.sideToMove.opp e).testBit st = false := by
      apply Nat.testBit_lt_two_pow
      calc pawn_attacks_bb pos.sideToMove.opp e < 2 ^ 64 := hlt
        _ ≤ 2 ^ st := Nat.pow_le_pow_right (by norm_num) h64
    rw [hfalse] at hst2
    cases hst2
  have hr7 := pawn_attacker_not_on_rank7 pos.sideToMove e he64 hrank st hst64 hst2
  intro h0
  have hbit : ((pos.byColorType pos.sideToMove .PAWN &&&
      bbnot (if pos.sideToMove = .WHITE then Rank7BB else Rank2BB)) &&&
      pawn_attacks_bb pos.sideToMove.opp e).testBit st = true := by
    rw [Nat.testBit_land, Nat.testBit_land, testBit_bbnot _ _ hst64, hst1, hst2, hr7]
    rfl
  rw [h0, Nat.zero_testBit] at hbit
  cases hbit

/-- A position with White to move and an en passant square on d6, the
White pawn on e5 attacking it. -/
def P9ep : Position where
  byColorType := fun c pt =>
    match c, pt with
    | .WHITE, .PAWN => 1 <<< 36
    | .WHITE, .KING => 1 <<< 4
    | .BLACK, .PAWN => 1 <<< 35
    | .BLACK, .KING => 1 <<< 62
    | _, _ => 0
  sideToMove := .WHITE
  epSquare := some 43
  checkersBB := 0
  blockersForKing := fun _ => 0
  canCastleSide := fun _ _ => false
  castlingImpededSide := fun _ _ => false
  castlingRookSquareSide := fun _ _ => 0
  legalOracle := fun _ => true
  rule50 := 0

/-- Witness for C9 at a concrete position. -/
theorem ep_assert_never_fires_witness :
    epValid P9ep = true ∧ P9ep.epSquare = some 43 ∧
      (P9ep.byColorType P9ep.sideToMove .PAWN &&&
          bbnot (if P9ep.sideToMove = .WHITE then Rank7BB else Rank2BB)) &&&
        pawn_attacks_bb P9ep.sideToMove.opp 43 ≠ 0 :=
  ⟨by decide, rfl, ep_assert_never_fires P9ep (by decide) 43 rfl⟩

end SF
